import Mathlib

/-!
Shallow embedding of the bounded ordered map of `smoltcp-rs/rust-managed`
(`src/map.rs`, the `ManagedMap::Borrowed` variant).

The storage region `&mut [Option<(K, V)>]` is embedded as `List (Slot K V)`.
Keys carry a Rust-style comparator `cmpK : K → K → Ordering` (the `Ord`
instance); its lawfulness (Rust's `Ord` contract: a total preorder) is the
`Batteries.TransCmp` class.  A Rust panic (out-of-bounds indexing, a failing
`assert!`, a failing `expect`) is embedded as the `Option.none` result of the
operation; a normal completion returns `Option.some` of the Rust return value
paired with the region after the call.
-/

deriving instance DecidableEq for Except

namespace ManagedMap

open Batteries (OrientedCmp TransCmp)

/-- One storage slot: `Option<(K, V)>` — empty, or holding one key/value pair. -/
abbrev Slot (K V : Type) := Option (K × V)

/-- `RevOption`: like `Option`, but with `Some` values sorting first
(src/map.rs lines 63-68, `#[derive(PartialEq, Eq, PartialOrd, Ord)]`). -/
inductive RevOption (T : Type) where
  | some (x : T)
  | none
deriving DecidableEq

/-- The derived `Ord` of `RevOption`: variants compare in declaration order
(`Some` before `None`), and two `Some`s compare by their contents. -/
def RevOption.cmp (cmpK : T → T → Ordering) : RevOption T → RevOption T → Ordering
  | RevOption.some x, RevOption.some y => cmpK x y
  | RevOption.some _, RevOption.none => Ordering.lt
  | RevOption.none, RevOption.some _ => Ordering.gt
  | RevOption.none, RevOption.none => Ordering.eq

/-- `From<Option<T>> for RevOption<T>` (src/map.rs lines 70-77). -/
def RevOption.ofOption : Option T → RevOption T
  | Option.some x => RevOption.some x
  | Option.none => RevOption.none

variable {K V : Type}

/-- The key extraction + comparison performed for one entry by the closure in
`binary_search_by_key` (src/map.rs lines 91-93): the entry is mapped to the
`RevOption` of its key and compared against `RevOption::Some(key)`. -/
def entryCmp (cmpK : K → K → Ordering) (entry : Slot K V) (key : K) : Ordering :=
  RevOption.cmp cmpK (RevOption.ofOption (entry.map Prod.fst)) (RevOption.some key)

/-- The number of entries comparing strictly below the key under `entryCmp`;
on a region satisfying the sortedness invariant this is the insertion index. -/
def insertionIdx (cmpK : K → K → Ordering) (slice : List (Slot K V)) (key : K) : Nat :=
  slice.countP fun entry => decide (entryCmp cmpK entry key = Ordering.lt)

/-- Modelled from the spec: `fn binary_search_by_key` (src/map.rs lines 88-94)
delegates to the standard library's `slice::binary_search_by_key`, whose source
is outside this repository.  Per its documented contract on a region sorted by
the absence-sorts-last comparator, it returns `Ok(i)` when slot `i` holds a key
comparing equal to `key`, and otherwise `Err(i)` with `i` the index at which
the key could be inserted keeping ascending order — the number of entries
comparing strictly below it. -/
def binary_search_by_key (cmpK : K → K → Ordering) (slice : List (Slot K V)) (key : K) :
    Except Nat Nat :=
  match slice[insertionIdx cmpK slice key]? with
  | Option.some entry =>
    if entryCmp cmpK entry key = Ordering.eq then Except.ok (insertionIdx cmpK slice key)
    else Except.error (insertionIdx cmpK slice key)
  | Option.none => Except.error (insertionIdx cmpK slice key)

/-- `slice::rotate_left(mid)`: the element at index `mid` becomes the first
element of the slice.  Total model of the std function for `mid ≤ length`;
every call site in src/map.rs satisfies that bound. -/
def rotate_left (l : List α) (mid : Nat) : List α :=
  l.drop mid ++ l.take mid

/-- `ManagedMap::clear`, borrowed variant (src/map.rs lines 111-121):
sets every slot to `None`. -/
def clear (pairs : List (Slot K V)) : List (Slot K V) :=
  pairs.map fun _ => Option.none

/-- `ManagedMap::get`, borrowed variant (src/map.rs lines 123-136): binary
search; on `Ok(idx)` the slot is unwrapped (it is occupied whenever the search
model reports `Ok`, so the unwrap cannot panic) and its value returned. -/
def get (cmpK : K → K → Ordering) (pairs : List (Slot K V)) (key : K) : Option V :=
  match binary_search_by_key cmpK pairs key with
  | Except.ok idx =>
    match pairs[idx]? with
    | Option.some (Option.some (_, value)) => Option.some value
    | _ => Option.none
  | Except.error _ => Option.none

/-- `ManagedMap::get_mut`, borrowed variant (src/map.rs lines 138-151): same
search as `get`, returning the value reachable through the mutable reference. -/
def get_mut (cmpK : K → K → Ordering) (pairs : List (Slot K V)) (key : K) : Option V :=
  get cmpK pairs key

/-- `ManagedMap::insert`, borrowed variant (src/map.rs lines 153-177).
`Option.none` models a panic: indexing `pairs[pairs.len() - 1]` on a
zero-length region, or the `assert!(pairs[idx].is_none(), "broken invariant")`,
or the `swap_pair.expect("broken invariant")`.  A normal return yields the Rust
`Result<Option<V>, (K, V)>` together with the region after the call. -/
def insert (cmpK : K → K → Ordering) (pairs : List (Slot K V)) (key : K) (new_value : V) :
    Option (Except (K × V) (Option V) × List (Slot K V)) :=
  match binary_search_by_key cmpK pairs key with
  | Except.error idx =>
    match pairs[pairs.length - 1]? with
    | Option.none => Option.none
    | Option.some (Option.some _) =>
      Option.some (Except.error (key, new_value), pairs)
    | Option.some Option.none =>
      match (pairs.take idx ++ rotate_left (pairs.drop idx) (pairs.length - idx - 1))[idx]? with
      | Option.some Option.none =>
        Option.some (Except.ok Option.none,
          (pairs.take idx ++
            rotate_left (pairs.drop idx) (pairs.length - idx - 1)).set idx
            (Option.some (key, new_value)))
      | _ => Option.none
  | Except.ok idx =>
    match pairs[idx]? with
    | Option.some (Option.some (_key, old_value)) =>
      Option.some (Except.ok (Option.some old_value),
                   pairs.set idx (Option.some (key, new_value)))
    | _ => Option.none

/-- `ManagedMap::remove`, borrowed variant (src/map.rs lines 179-196).
`Option.none` models the panic of `pairs[idx].take().expect("broken
invariant")`; a normal return yields the removed value (if any) together with
the region after the call. -/
def remove (cmpK : K → K → Ordering) (pairs : List (Slot K V)) (key : K) :
    Option (Option V × List (Slot K V)) :=
  match binary_search_by_key cmpK pairs key with
  | Except.ok idx =>
    match pairs[idx]? with
    | Option.some (Option.some (_key, value)) =>
      Option.some (Option.some value,
        (pairs.set idx Option.none).take idx ++
          rotate_left ((pairs.set idx Option.none).drop idx) 1)
    | _ => Option.none
  | Except.error _ => Option.some (Option.none, pairs)

/-- `ManagedMap::is_empty`, borrowed variant (src/map.rs lines 199-207). -/
def is_empty (pairs : List (Slot K V)) : Bool :=
  pairs.all fun item => item.isNone

/-- `ManagedMap::len`, borrowed variant (src/map.rs lines 210-220). -/
def len (pairs : List (Slot K V)) : Nat :=
  (pairs.filter fun item => item.isSome).length

/-- The order the sortedness invariant imposes on two slots appearing at an
earlier and a later position of the region: two occupied slots carry strictly
increasing keys, an empty slot is never followed by an occupied one, and any
slot may precede an empty one. -/
def slotBefore (cmpK : K → K → Ordering) : Slot K V → Slot K V → Prop
  | Option.some (k1, _), Option.some (k2, _) => cmpK k1 k2 = Ordering.lt
  | Option.none, Option.some _ => False
  | _, Option.none => True

instance (cmpK : K → K → Ordering) : DecidableRel (slotBefore (V := V) cmpK) := fun a b =>
  match a, b with
  | Option.some (k1, _), Option.some (k2, _) =>
    inferInstanceAs (Decidable (cmpK k1 k2 = Ordering.lt))
  | Option.none, Option.some _ => inferInstanceAs (Decidable False)
  | Option.some _, Option.none => inferInstanceAs (Decidable True)
  | Option.none, Option.none => inferInstanceAs (Decidable True)

/-- Invariant I1: reading the region left-to-right yields all occupied slots
first, strictly increasing by key, followed by all empty slots. -/
def I1 (cmpK : K → K → Ordering) (pairs : List (Slot K V)) : Prop :=
  List.Pairwise (slotBefore cmpK) pairs

instance (cmpK : K → K → Ordering) (pairs : List (Slot K V)) : Decidable (I1 cmpK pairs) :=
  inferInstanceAs (Decidable (List.Pairwise (slotBefore cmpK) pairs))

/-- Invariant I2: no key occurs in more than one occupied slot — no two
occupied slots carry keys comparing equal. -/
def I2 (cmpK : K → K → Ordering) (pairs : List (Slot K V)) : Prop :=
  List.Pairwise
    (fun a b => ∀ k1 v1 k2 v2,
      a = Option.some (k1, v1) → b = Option.some (k2, v2) → cmpK k1 k2 ≠ Ordering.eq)
    pairs

/-- No slot of the region holds a key comparing equal to `key`. -/
def keyAbsent (cmpK : K → K → Ordering) (pairs : List (Slot K V)) (key : K) : Prop :=
  ∀ s ∈ pairs, entryCmp cmpK s key ≠ Ordering.eq

instance (cmpK : K → K → Ordering) (pairs : List (Slot K V)) (key : K) :
    Decidable (keyAbsent cmpK pairs key) :=
  inferInstanceAs (Decidable (∀ s ∈ pairs, entryCmp cmpK s key ≠ Ordering.eq))

/-- One mutating operation of the bounded map. -/
inductive MapOp (K V : Type) where
  | ins (key : K) (value : V)
  | del (key : K)

/-- Run a finite sequence of insert/remove operations left to right, threading
the region through; `Option.none` when some operation panics. -/
def runOps (cmpK : K → K → Ordering) :
    List (MapOp K V) → List (Slot K V) → Option (List (Slot K V))
  | [], pairs => Option.some pairs
  | MapOp.ins key value :: rest, pairs =>
    match insert cmpK pairs key value with
    | Option.some (_, pairs') => runOps cmpK rest pairs'
    | Option.none => Option.none
  | MapOp.del key :: rest, pairs =>
    match remove cmpK pairs key with
    | Option.some (_, pairs') => runOps cmpK rest pairs'
    | Option.none => Option.none

/-! Basic facts about the comparator and the slot order -/

@[simp] theorem entryCmp_none (cmpK : K → K → Ordering) (key : K) :
    entryCmp cmpK (Option.none : Slot K V) key = Ordering.gt := rfl

@[simp] theorem entryCmp_some (cmpK : K → K → Ordering) (k : K) (v : V) (key : K) :
    entryCmp cmpK (Option.some (k, v)) key = cmpK k key := rfl

@[simp] theorem slotBefore_some_some {cmpK : K → K → Ordering} {k1 k2 : K} {v1 v2 : V} :
    slotBefore cmpK (Option.some (k1, v1)) (Option.some (k2, v2)) ↔ cmpK k1 k2 = Ordering.lt :=
  Iff.rfl

@[simp] theorem slotBefore_none_some {cmpK : K → K → Ordering} {p : K × V} :
    ¬ slotBefore cmpK Option.none (Option.some p) := fun h => h

@[simp] theorem slotBefore_any_none {cmpK : K → K → Ordering} {a : Slot K V} :
    slotBefore cmpK a Option.none := by
  cases a with
  | none => trivial
  | some p => obtain ⟨k, v⟩ := p; trivial

theorem none_of_slotBefore_none {cmpK : K → K → Ordering} {b : Slot K V}
    (h : slotBefore cmpK Option.none b) : b = Option.none := by
  cases b with
  | none => rfl
  | some p => exact absurd h slotBefore_none_some

/-! List surgery helpers -/

theorem eq_take_cons_drop : ∀ {l : List α} {i : Nat} {x : α}, l[i]? = Option.some x →
    l = l.take i ++ x :: l.drop (i + 1)
  | [], i, x, h => by simp at h
  | a :: l, 0, x, h => by
    simp only [List.getElem?_cons_zero, Option.some.injEq] at h
    simp [h]
  | a :: l, i + 1, x, h => by
    simp only [List.getElem?_cons_succ] at h
    simpa [List.take_succ_cons, List.drop_succ_cons] using
      congrArg (List.cons a) (eq_take_cons_drop h)

theorem set_length_append : ∀ (l₁ : List α) (a b : α) (l₂ : List α),
    (l₁ ++ a :: l₂).set l₁.length b = l₁ ++ b :: l₂
  | [], _, _, _ => rfl
  | x :: l₁, a, b, l₂ => congrArg (List.cons x) (set_length_append l₁ a b l₂)

theorem set_append_of_length {l₁ l₂ : List α} {n : Nat} (h : l₁.length = n) (a b : α) :
    (l₁ ++ a :: l₂).set n b = l₁ ++ b :: l₂ := by
  subst h
  exact set_length_append l₁ a b l₂

/-- A region whose final slot exists splits as everything before it plus that
slot. -/
theorem eq_append_last {l : List α} {x : α} (h : l[l.length - 1]? = Option.some x) :
    l = l.take (l.length - 1) ++ [x] := by
  have hne : l ≠ [] := by
    intro he
    rw [he] at h
    simp at h
  have hlen : l.length - 1 + 1 = l.length := Nat.succ_pred_eq_of_pos (List.length_pos.2 hne)
  have := eq_take_cons_drop h
  rwa [hlen, List.drop_length] at this

/-! Pairwise surgery helpers -/

theorem pairwise_middle_elim {R : α → α → Prop} {l₁ l₂ : List α} {x : α}
    (h : List.Pairwise R (l₁ ++ x :: l₂)) :
    (∀ a ∈ l₁, R a x) ∧ (∀ b ∈ l₂, R x b) ∧ List.Pairwise R (l₁ ++ l₂) := by
  rw [List.pairwise_append] at h
  obtain ⟨h1, h2, h3⟩ := h
  rw [List.pairwise_cons] at h2
  refine ⟨fun a ha => h3 a ha x (List.mem_cons_self x l₂), h2.1, ?_⟩
  rw [List.pairwise_append]
  exact ⟨h1, h2.2, fun a ha b hb => h3 a ha b (List.mem_cons_of_mem x hb)⟩

theorem pairwise_middle_set {R : α → α → Prop} {l₁ l₂ : List α} {x y : α}
    (h : List.Pairwise R (l₁ ++ x :: l₂))
    (hy1 : ∀ a ∈ l₁, R a x → R a y) (hy2 : ∀ b ∈ l₂, R x b → R y b) :
    List.Pairwise R (l₁ ++ y :: l₂) := by
  rw [List.pairwise_append] at h ⊢
  obtain ⟨h1, h2, h3⟩ := h
  rw [List.pairwise_cons] at h2 ⊢
  refine ⟨h1, ⟨fun b hb => hy2 b hb (h2.1 b hb), h2.2⟩, fun a ha b hb => ?_⟩
  rcases List.mem_cons.1 hb with hb | hb
  · subst hb
    exact hy1 a ha (h3 a ha x (List.mem_cons_self x l₂))
  · exact h3 a ha b (List.mem_cons_of_mem x hb)

/-! The insertion index under invariant I1 -/

theorem I1_iff {cmpK : K → K → Ordering} {pairs : List (Slot K V)} :
    I1 cmpK pairs ↔ List.Pairwise (slotBefore cmpK) pairs :=
  Iff.rfl

open Batteries in
/-- Under I1, the region splits at the insertion index: every entry before it
compares strictly below the key, no entry from it on does. -/
theorem lt_prefix_suffix {cmpK : K → K → Ordering} [TransCmp cmpK] (key : K)
    {pairs : List (Slot K V)} (h : I1 cmpK pairs) :
    (∀ e ∈ pairs.take (insertionIdx cmpK pairs key), entryCmp cmpK e key = Ordering.lt) ∧
    (∀ e ∈ pairs.drop (insertionIdx cmpK pairs key), entryCmp cmpK e key ≠ Ordering.lt) := by
  induction pairs with
  | nil => simp
  | cons a l ih =>
    rw [I1_iff, List.pairwise_cons] at h
    obtain ⟨ha, hl⟩ := h
    have closed : ∀ b ∈ l,
        entryCmp cmpK b key = Ordering.lt → entryCmp cmpK a key = Ordering.lt := by
      intro b hb hblt
      have hab := ha b hb
      cases a with
      | none =>
        rw [none_of_slotBefore_none hab] at hblt
        simp at hblt
      | some p =>
        obtain ⟨k1, v1⟩ := p
        cases b with
        | none => simp at hblt
        | some q =>
          obtain ⟨k2, v2⟩ := q
          simp only [entryCmp_some] at hblt ⊢
          exact TransCmp.lt_trans (slotBefore_some_some.1 hab) hblt
    by_cases hpa : entryCmp cmpK a key = Ordering.lt
    · have hidx : insertionIdx cmpK (a :: l) key = insertionIdx cmpK l key + 1 := by
        simp [insertionIdx, List.countP_cons, hpa]
      rw [hidx]
      obtain ⟨ih1, ih2⟩ := ih (I1_iff.2 hl)
      constructor
      · intro e he
        rw [List.take_succ_cons, List.mem_cons] at he
        rcases he with rfl | he
        · exact hpa
        · exact ih1 e he
      · intro e he
        rw [List.drop_succ_cons] at he
        exact ih2 e he
    · have hidx : insertionIdx cmpK (a :: l) key = 0 := by
        have hz : (l.countP fun entry => decide (entryCmp cmpK entry key = Ordering.lt)) = 0 := by
          rw [List.countP_eq_zero]
          intro b hb
          simp only [decide_eq_true_eq]
          exact fun hblt => hpa (closed b hb hblt)
        rw [insertionIdx, List.countP_cons, hz]
        simp [hpa]
      rw [hidx]
      refine ⟨by simp, ?_⟩
      intro e he
      rw [List.drop_zero] at he
      rcases List.mem_cons.1 he with rfl | he
      · exact hpa
      · exact fun hlt => hpa (closed e he hlt)

theorem insertionIdx_le {cmpK : K → K → Ordering} {key : K} {pairs : List (Slot K V)} :
    insertionIdx cmpK pairs key ≤ pairs.length :=
  List.countP_le_length _

/-! Inversion of the binary search -/

theorem binary_ok_inv {cmpK : K → K → Ordering} {pairs : List (Slot K V)} {key : K} {i : Nat}
    (h : binary_search_by_key cmpK pairs key = Except.ok i) :
    i = insertionIdx cmpK pairs key ∧
    ∃ k0 v0, pairs[i]? = Option.some (Option.some (k0, v0)) ∧ cmpK k0 key = Ordering.eq := by
  rw [binary_search_by_key] at h
  split at h
  next entry heq =>
    split at h
    next he =>
      cases h
      refine ⟨rfl, ?_⟩
      cases entry with
      | none => simp at he
      | some p =>
        obtain ⟨k0, v0⟩ := p
        exact ⟨k0, v0, heq, by simpa using he⟩
    next => cases h
  next => cases h

theorem binary_err_inv {cmpK : K → K → Ordering} {pairs : List (Slot K V)} {key : K} {i : Nat}
    (h : binary_search_by_key cmpK pairs key = Except.error i) :
    i = insertionIdx cmpK pairs key ∧
    ∀ s, pairs[i]? = Option.some s → entryCmp cmpK s key ≠ Ordering.eq := by
  rw [binary_search_by_key] at h
  split at h
  next entry heq =>
    split at h
    next => cases h
    next he =>
      cases h
      exact ⟨rfl, fun s hs => by rw [heq] at hs; cases hs; exact he⟩
  next heq =>
    cases h
    exact ⟨rfl, fun s hs => by rw [heq] at hs; cases hs⟩

theorem binary_of_absent {cmpK : K → K → Ordering} {pairs : List (Slot K V)} {key : K}
    (habs : keyAbsent cmpK pairs key) :
    binary_search_by_key cmpK pairs key = Except.error (insertionIdx cmpK pairs key) := by
  rw [binary_search_by_key]
  cases heq : pairs[insertionIdx cmpK pairs key]? with
  | none => rfl
  | some entry =>
    have hmem : entry ∈ pairs := by
      obtain ⟨hlt, hget⟩ := List.getElem?_eq_some.1 heq
      exact hget ▸ List.getElem_mem hlt
    simp [habs entry hmem]

open Batteries in
/-- Under I1, a slot holding a key comparing equal to the query is found by the
search, at its own index. -/
theorem binary_of_found {cmpK : K → K → Ordering} [TransCmp cmpK] {pairs : List (Slot K V)}
    {key : K} {i : Nat} {k0 : K} {v0 : V} (h1 : I1 cmpK pairs)
    (hi : pairs[i]? = Option.some (Option.some (k0, v0))) (he : cmpK k0 key = Ordering.eq) :
    binary_search_by_key cmpK pairs key = Except.ok i := by
  have hdecomp := eq_take_cons_drop hi
  have hilen : i < pairs.length := by
    rw [List.getElem?_eq_some] at hi
    exact hi.1
  have hpw0 : List.Pairwise (slotBefore cmpK)
      (pairs.take i ++ Option.some (k0, v0) :: pairs.drop (i + 1)) := by
    rw [← hdecomp]
    exact I1_iff.1 h1
  have hmid := pairwise_middle_elim hpw0
  have hpre : ∀ e ∈ pairs.take i, entryCmp cmpK e key = Ordering.lt := by
    intro e hetake
    have hrel := hmid.1 e hetake
    cases e with
    | none => exact absurd hrel slotBefore_none_some
    | some p =>
      obtain ⟨ka, va⟩ := p
      have hlt : cmpK ka k0 = Ordering.lt := slotBefore_some_some.1 hrel
      rw [entryCmp_some, ← TransCmp.cmp_congr_right he]
      exact hlt
  have hpost : ∀ e ∈ pairs.drop (i + 1), entryCmp cmpK e key ≠ Ordering.lt := by
    intro e hedrop
    have hrel := hmid.2.1 e hedrop
    cases e with
    | none => simp
    | some p =>
      obtain ⟨kb, vb⟩ := p
      have hlt : cmpK k0 kb = Ordering.lt := slotBefore_some_some.1 hrel
      have hkey : cmpK key kb = Ordering.lt := by
        rw [TransCmp.cmp_congr_left (OrientedCmp.cmp_eq_eq_symm.1 he)]
        exact hlt
      have : cmpK kb key = Ordering.gt := OrientedCmp.cmp_eq_gt.2 hkey
      simp [this]
  have hidx : insertionIdx cmpK pairs key = i := by
    have hlen_take : (pairs.take i).length = i := by
      rw [List.length_take]
      exact Nat.min_eq_left (Nat.le_of_lt hilen)
    rw [insertionIdx]
    conv_lhs => rw [hdecomp]
    rw [List.countP_append, List.countP_cons]
    have h1c : (pairs.take i).countP
        (fun entry => decide (entryCmp cmpK entry key = Ordering.lt)) = i := by
      have hfull : (pairs.take i).countP
          (fun entry => decide (entryCmp cmpK entry key = Ordering.lt)) =
          (pairs.take i).length :=
        List.countP_eq_length.2 fun e hetake => by simpa using hpre e hetake
      rw [hfull, hlen_take]
    have h2c : (pairs.drop (i + 1)).countP
        (fun entry => decide (entryCmp cmpK entry key = Ordering.lt)) = 0 := by
      rw [List.countP_eq_zero]
      intro e hedrop
      simpa using hpost e hedrop
    simp [h1c, h2c, he]
  rw [binary_search_by_key, hidx, hi]
  show (if entryCmp cmpK (Option.some (k0, v0)) key = Ordering.eq
      then Except.ok i else Except.error i) = Except.ok i
  rw [if_pos (by rw [entryCmp_some, he])]

/-! Characterization of the operations on their branches -/

open Batteries in
/-- Replace path of `insert`: the key is found at index `i`; the whole pair at
slot `i` — key included — is swapped for the newly supplied one, and the prior
value is returned. -/
theorem insert_found {cmpK : K → K → Ordering} [TransCmp cmpK] {pairs : List (Slot K V)}
    {key : K} {i : Nat} {k0 : K} {v0 : V} (h1 : I1 cmpK pairs)
    (hi : pairs[i]? = Option.some (Option.some (k0, v0))) (he : cmpK k0 key = Ordering.eq)
    (v : V) :
    insert cmpK pairs key v =
      Option.some (Except.ok (Option.some v0), pairs.set i (Option.some (key, v))) := by
  rw [insert, binary_of_found h1 hi he]
  simp [hi]

/-- Full path of `insert`: the key is absent and the last slot is occupied. -/
theorem insert_full {cmpK : K → K → Ordering} {pairs : List (Slot K V)} {key : K}
    (habs : keyAbsent cmpK pairs key) {q : K × V}
    (hlast : pairs[pairs.length - 1]? = Option.some (Option.some q)) (v : V) :
    insert cmpK pairs key v = Option.some (Except.error (key, v), pairs) := by
  rw [insert, binary_of_absent habs]
  simp [hlast]

/-- A search that misses while the last slot is empty reports an index inside
the region. -/
theorem err_idx_lt {cmpK : K → K → Ordering} {pairs : List (Slot K V)} {key : K} {i : Nat}
    (hb : binary_search_by_key cmpK pairs key = Except.error i)
    (hlast : pairs[pairs.length - 1]? = Option.some Option.none) :
    i < pairs.length := by
  obtain ⟨hidx, -⟩ := binary_err_inv hb
  rcases Nat.lt_or_ge i pairs.length with h | h
  · exact h
  · exfalso
    have heq : insertionIdx cmpK pairs key = pairs.length :=
      Nat.le_antisymm insertionIdx_le (hidx ▸ h)
    have hall := List.countP_eq_length.1 heq
    have hmem : (Option.none : Slot K V) ∈ pairs := by
      obtain ⟨hlt2, hget⟩ := List.getElem?_eq_some.1 hlast
      exact hget ▸ List.getElem_mem hlt2
    have := hall _ hmem
    simp at this

/-- New-entry path of `insert`: the search missed at index `i` and the last
slot is empty; the suffix from `i` rotates one step right (absorbing the final
empty slot) and the new pair lands at index `i`. -/
theorem insert_new {cmpK : K → K → Ordering} {pairs : List (Slot K V)} {key : K} {i : Nat}
    (hb : binary_search_by_key cmpK pairs key = Except.error i)
    (hlast : pairs[pairs.length - 1]? = Option.some Option.none) (v : V) :
    insert cmpK pairs key v = Option.some (Except.ok Option.none,
      pairs.take i ++ Option.some (key, v) :: (pairs.drop i).dropLast) := by
  have hP : pairs = pairs.take (pairs.length - 1) ++ [Option.none] := eq_append_last hlast
  have hlenP : (pairs.take (pairs.length - 1)).length = pairs.length - 1 := by
    rw [List.length_take]
    exact Nat.min_eq_left (Nat.sub_le _ _)
  have hi_lt : i < pairs.length := err_idx_lt hb hlast
  have hi_le : i ≤ pairs.length - 1 := by omega
  have hdrop : pairs.drop i = (pairs.take (pairs.length - 1)).drop i ++ [Option.none] := by
    conv_lhs => rw [hP]
    rw [List.drop_append_of_le_length (by rw [hlenP]; exact hi_le)]
  have hlenC : ((pairs.take (pairs.length - 1)).drop i).length = pairs.length - i - 1 := by
    rw [List.length_drop, hlenP]
    omega
  have hrot : rotate_left (pairs.drop i) (pairs.length - i - 1) =
      Option.none :: (pairs.take (pairs.length - 1)).drop i := by
    rw [hdrop, rotate_left, ← hlenC, List.drop_left, List.take_left]
    rfl
  have hdropLast : (pairs.drop i).dropLast = (pairs.take (pairs.length - 1)).drop i := by
    rw [hdrop, List.dropLast_concat]
  have hlen_take_i : (pairs.take i).length = i := by
    rw [List.length_take]
    exact Nat.min_eq_left (Nat.le_of_lt hi_lt)
  have hrotated : (pairs.take i ++
      rotate_left (pairs.drop i) (pairs.length - i - 1))[i]? = Option.some Option.none := by
    rw [hrot, List.getElem?_append_right hlen_take_i.le, hlen_take_i]
    simp
  have hset : (pairs.take i ++
      rotate_left (pairs.drop i) (pairs.length - i - 1)).set i (Option.some (key, v)) =
      pairs.take i ++ Option.some (key, v) :: (pairs.drop i).dropLast := by
    rw [hrot, hdropLast]
    exact set_append_of_length hlen_take_i _ _
  rw [insert, hb]
  simp only [hlast, hrotated, hset]

/-- Found path of `remove`: the pair is taken out and the suffix from its index
rotates left by one, moving the vacated slot to the end of the region. -/
theorem remove_found {cmpK : K → K → Ordering} [TransCmp cmpK] {pairs : List (Slot K V)}
    {key : K} {i : Nat} {k0 : K} {v0 : V} (h1 : I1 cmpK pairs)
    (hi : pairs[i]? = Option.some (Option.some (k0, v0))) (he : cmpK k0 key = Ordering.eq) :
    remove cmpK pairs key = Option.some (Option.some v0,
      pairs.take i ++ (pairs.drop (i + 1) ++ [Option.none])) := by
  have hilen : i < pairs.length := (List.getElem?_eq_some.1 hi).1
  have hset : pairs.set i Option.none = pairs.take i ++ Option.none :: pairs.drop (i + 1) :=
    List.set_eq_take_cons_drop _ hilen
  have hlen_take_i : (pairs.take i).length = i := by
    rw [List.length_take]
    exact Nat.min_eq_left (Nat.le_of_lt hilen)
  have htake : (pairs.set i Option.none).take i = pairs.take i := by
    rw [hset]
    exact List.take_left' hlen_take_i
  have hdrop : (pairs.set i Option.none).drop i = Option.none :: pairs.drop (i + 1) := by
    rw [hset]
    exact List.drop_left' hlen_take_i
  have hrot : rotate_left ((pairs.set i Option.none).drop i) 1 =
      pairs.drop (i + 1) ++ [Option.none] := by
    rw [hdrop, rotate_left]
    rfl
  rw [remove, binary_of_found h1 hi he]
  simp only [hi, htake, hrot]

/-- Absent path of `remove`: a no-op. -/
theorem remove_absent {cmpK : K → K → Ordering} {pairs : List (Slot K V)} {key : K}
    (habs : keyAbsent cmpK pairs key) :
    remove cmpK pairs key = Option.some (Option.none, pairs) := by
  rw [remove, binary_of_absent habs]

/-! Preservation of the invariants -/

theorem I2_iff {cmpK : K → K → Ordering} {pairs : List (Slot K V)} :
    I2 cmpK pairs ↔ List.Pairwise
      (fun a b => ∀ k1 v1 k2 v2,
        a = Option.some (k1, v1) → b = Option.some (k2, v2) → cmpK k1 k2 ≠ Ordering.eq)
      pairs :=
  Iff.rfl

theorem I2_of_I1 {cmpK : K → K → Ordering} {pairs : List (Slot K V)} (h : I1 cmpK pairs) :
    I2 cmpK pairs := by
  rw [I1_iff] at h
  rw [I2_iff]
  refine h.imp ?_
  intro a b hab k1 v1 k2 v2 ha hb
  subst ha
  subst hb
  rw [slotBefore_some_some] at hab
  rw [hab]
  simp

open Batteries in
theorem absent_of_binary_err {cmpK : K → K → Ordering} [TransCmp cmpK]
    {pairs : List (Slot K V)} {key : K} {i : Nat} (h1 : I1 cmpK pairs)
    (hb : binary_search_by_key cmpK pairs key = Except.error i) :
    keyAbsent cmpK pairs key := by
  intro s hs he
  cases s with
  | none => simp at he
  | some p =>
    obtain ⟨k0, v0⟩ := p
    obtain ⟨j, hj⟩ := List.getElem?_of_mem hs
    have hfound := binary_of_found h1 hj (by simpa using he)
    rw [hb] at hfound
    cases hfound

open Batteries in
/-- After a missed search at index `i`, the new pair sorts before every slot of
the suffix from `i`. -/
theorem suffix_slotBefore_new {cmpK : K → K → Ordering} [TransCmp cmpK]
    {pairs : List (Slot K V)} {key : K} {i : Nat} (h1 : I1 cmpK pairs)
    (hb : binary_search_by_key cmpK pairs key = Except.error i) (v : V) :
    ∀ b ∈ pairs.drop i, slotBefore cmpK (Option.some (key, v)) b := by
  obtain ⟨hidx, hat⟩ := binary_err_inv hb
  have hsuffix := (lt_prefix_suffix key h1).2
  rw [← hidx] at hsuffix
  intro b hbmem
  have hpw : List.Pairwise (slotBefore cmpK) (pairs.drop i) :=
    List.Pairwise.sublist (List.drop_sublist _ _) (I1_iff.1 h1)
  cases hd : pairs.drop i with
  | nil =>
    rw [hd] at hbmem
    simp at hbmem
  | cons b0 tl =>
    have hb0 : pairs[i]? = Option.some b0 := by
      have hat0 := List.getElem?_drop pairs i 0
      rw [hd] at hat0
      simpa using hat0.symm
    have hb0ne : entryCmp cmpK b0 key ≠ Ordering.eq := hat b0 hb0
    have hb0nlt : entryCmp cmpK b0 key ≠ Ordering.lt := by
      apply hsuffix b0
      rw [hd]
      exact List.mem_cons_self _ _
    have hb0before : slotBefore cmpK (Option.some (key, v)) b0 := by
      cases b0 with
      | none => exact slotBefore_any_none
      | some p =>
        obtain ⟨kb, vb⟩ := p
        rw [entryCmp_some] at hb0ne hb0nlt
        have hgt : cmpK kb key = Ordering.gt := by
          cases hcase : cmpK kb key with
          | lt => exact absurd hcase hb0nlt
          | eq => exact absurd hcase hb0ne
          | gt => rfl
        rw [slotBefore_some_some]
        exact OrientedCmp.cmp_eq_gt.1 hgt
    rw [hd] at hbmem
    rcases List.mem_cons.1 hbmem with rfl | hbtl
    · exact hb0before
    · rw [hd, List.pairwise_cons] at hpw
      have hrel := hpw.1 b hbtl
      cases b0 with
      | none =>
        rw [none_of_slotBefore_none hrel]
        exact slotBefore_any_none
      | some p =>
        obtain ⟨kb0, vb0⟩ := p
        cases b with
        | none => exact slotBefore_any_none
        | some q =>
          obtain ⟨kb, vb⟩ := q
          rw [slotBefore_some_some] at hrel ⊢
          exact TransCmp.lt_trans (slotBefore_some_some.1 hb0before) hrel

open Batteries in
theorem insert_preserves_I1 {cmpK : K → K → Ordering} [TransCmp cmpK]
    {pairs pairs' : List (Slot K V)} {key : K} {v : V} {r : Except (K × V) (Option V)}
    (h1 : I1 cmpK pairs) (h : insert cmpK pairs key v = Option.some (r, pairs')) :
    I1 cmpK pairs' := by
  cases hb : binary_search_by_key cmpK pairs key with
  | ok i =>
    obtain ⟨hidx, k0, v0, hi, he⟩ := binary_ok_inv hb
    rw [insert_found h1 hi he v] at h
    simp only [Option.some.injEq, Prod.mk.injEq] at h
    obtain ⟨-, rfl⟩ := h
    rw [I1_iff]
    have hdecomp := eq_take_cons_drop hi
    have hset : pairs.set i (Option.some (key, v)) =
        pairs.take i ++ Option.some (key, v) :: pairs.drop (i + 1) :=
      List.set_eq_take_cons_drop _ (List.getElem?_eq_some.1 hi).1
    rw [hset]
    apply pairwise_middle_set (x := Option.some (k0, v0))
    · rw [← hdecomp]
      exact I1_iff.1 h1
    · intro a ha hax
      cases a with
      | none => exact absurd hax slotBefore_none_some
      | some p =>
        obtain ⟨ka, va⟩ := p
        rw [slotBefore_some_some] at hax ⊢
        rw [← TransCmp.cmp_congr_right he]
        exact hax
    · intro b hbmem hxb
      cases b with
      | none => exact slotBefore_any_none
      | some q =>
        obtain ⟨kb, vb⟩ := q
        rw [slotBefore_some_some] at hxb ⊢
        rw [TransCmp.cmp_congr_left (OrientedCmp.cmp_eq_eq_symm.1 he)]
        exact hxb
  | error i =>
    cases hlast : pairs[pairs.length - 1]? with
    | none =>
      rw [insert, hb] at h
      simp [hlast] at h
    | some s =>
      cases s with
      | some q =>
        rw [insert_full (absent_of_binary_err h1 hb) hlast v] at h
        simp only [Option.some.injEq, Prod.mk.injEq] at h
        obtain ⟨-, rfl⟩ := h
        exact h1
      | none =>
        rw [insert_new hb hlast v] at h
        simp only [Option.some.injEq, Prod.mk.injEq] at h
        obtain ⟨-, rfl⟩ := h
        rw [I1_iff, List.pairwise_append]
        refine ⟨List.Pairwise.sublist (List.take_sublist _ _) (I1_iff.1 h1), ?_, ?_⟩
        · rw [List.pairwise_cons]
          constructor
          · intro b hbmem
            exact suffix_slotBefore_new h1 hb v b (List.mem_of_mem_dropLast hbmem)
          · exact List.Pairwise.sublist
              ((List.dropLast_sublist _).trans (List.drop_sublist _ _)) (I1_iff.1 h1)
        · intro a ha y hy
          rcases List.mem_cons.1 hy with rfl | hy
          · obtain ⟨hidx, -⟩ := binary_err_inv hb
            have hpre := (lt_prefix_suffix key h1).1
            rw [← hidx] at hpre
            have halt := hpre a ha
            cases a with
            | none => simp at halt
            | some p =>
              obtain ⟨ka, va⟩ := p
              rw [slotBefore_some_some]
              simpa using halt
          · have hy' := List.mem_of_mem_dropLast hy
            have hcross : ∀ a ∈ pairs.take i, ∀ b ∈ pairs.drop i, slotBefore cmpK a b := by
              have hpw := I1_iff.1 h1
              rw [← List.take_append_drop i pairs, List.pairwise_append] at hpw
              exact hpw.2.2
            exact hcross a ha y hy'

open Batteries in
theorem remove_preserves_I1 {cmpK : K → K → Ordering} [TransCmp cmpK]
    {pairs pairs' : List (Slot K V)} {key : K} {r : Option V}
    (h1 : I1 cmpK pairs) (h : remove cmpK pairs key = Option.some (r, pairs')) :
    I1 cmpK pairs' := by
  cases hb : binary_search_by_key cmpK pairs key with
  | error i =>
    rw [remove, hb] at h
    simp only [Option.some.injEq, Prod.mk.injEq] at h
    obtain ⟨-, rfl⟩ := h
    exact h1
  | ok i =>
    obtain ⟨hidx, k0, v0, hi, he⟩ := binary_ok_inv hb
    rw [remove_found h1 hi he] at h
    simp only [Option.some.injEq, Prod.mk.injEq] at h
    obtain ⟨-, rfl⟩ := h
    have hdecomp := eq_take_cons_drop hi
    have hpw0 : List.Pairwise (slotBefore cmpK)
        (pairs.take i ++ Option.some (k0, v0) :: pairs.drop (i + 1)) := by
      rw [← hdecomp]
      exact I1_iff.1 h1
    have hmid := pairwise_middle_elim hpw0
    rw [I1_iff, ← List.append_assoc, List.pairwise_append]
    refine ⟨hmid.2.2, by simp, ?_⟩
    intro a ha b hb'
    rw [List.mem_singleton.1 hb']
    exact slotBefore_any_none

open Batteries in
theorem runOps_preserves_I1 {cmpK : K → K → Ordering} [TransCmp cmpK] :
    ∀ (ops : List (MapOp K V)) {pairs pairs' : List (Slot K V)},
    I1 cmpK pairs → runOps cmpK ops pairs = Option.some pairs' → I1 cmpK pairs'
  | [], pairs, pairs', h1, hrun => by
    rw [runOps] at hrun
    cases hrun
    exact h1
  | MapOp.ins key value :: rest, pairs, pairs', h1, hrun => by
    rw [runOps] at hrun
    cases hins : insert cmpK pairs key value with
    | none =>
      rw [hins] at hrun
      simp at hrun
    | some p =>
      obtain ⟨r, pairs''⟩ := p
      rw [hins] at hrun
      exact runOps_preserves_I1 rest (insert_preserves_I1 h1 hins) (by simpa using hrun)
  | MapOp.del key :: rest, pairs, pairs', h1, hrun => by
    rw [runOps] at hrun
    cases hdel : remove cmpK pairs key with
    | none =>
      rw [hdel] at hrun
      simp at hrun
    | some p =>
      obtain ⟨r, pairs''⟩ := p
      rw [hdel] at hrun
      exact runOps_preserves_I1 rest (remove_preserves_I1 h1 hdel) (by simpa using hrun)

/-! The last slot as a fullness test -/

/-- Under I1, once any slot is empty the final slot is empty. -/
theorem last_none_of_mem_none {cmpK : K → K → Ordering} {pairs : List (Slot K V)}
    (h1 : I1 cmpK pairs) (hm : Option.none ∈ pairs) :
    pairs[pairs.length - 1]? = Option.some Option.none := by
  obtain ⟨l₁, l₂, rfl⟩ := List.append_of_mem hm
  rw [I1_iff] at h1
  have hmid := pairwise_middle_elim h1
  have hall : ∀ b ∈ l₂, b = Option.none := fun b hb =>
    none_of_slotBefore_none (hmid.2.1 b hb)
  have hrepl : (Option.none :: l₂ : List (Slot K V)) =
      List.replicate (l₂.length + 1) Option.none := by
    have hmemall : ∀ b ∈ (Option.none :: l₂ : List (Slot K V)), b = Option.none := by
      intro b hb
      rcases List.mem_cons.1 hb with rfl | hb
      · rfl
      · exact hall b hb
    simpa using List.eq_replicate_of_mem hmemall
  have hlen : (l₁ ++ Option.none :: l₂).length = l₁.length + (l₂.length + 1) := by simp
  rw [hlen]
  have hidx : l₁.length + (l₂.length + 1) - 1 = l₁.length + l₂.length := by omega
  rw [hidx, List.getElem?_append_right (by omega)]
  have hsub : l₁.length + l₂.length - l₁.length = l₂.length := by omega
  rw [hsub, hrepl, List.getElem?_replicate]
  simp

/-- Under I1, an occupied final slot means the whole region is occupied. -/
theorem all_isSome_of_last {cmpK : K → K → Ordering} {pairs : List (Slot K V)}
    (h1 : I1 cmpK pairs) {s : Slot K V}
    (hlast : pairs[pairs.length - 1]? = Option.some s) (hs : s.isSome = true) :
    ∀ t ∈ pairs, t.isSome = true := by
  intro t ht
  cases t with
  | some p => rfl
  | none =>
    have hl2 := last_none_of_mem_none h1 ht
    rw [hlast] at hl2
    injection hl2 with hl2
    rw [hl2] at hs
    exact hs

theorem exists_last_isSome {pairs : List (Slot K V)} (hne : pairs ≠ [])
    (hall : ∀ t ∈ pairs, t.isSome = true) :
    ∃ q : K × V, pairs[pairs.length - 1]? = Option.some (Option.some q) := by
  have hlt : pairs.length - 1 < pairs.length := by
    have := List.length_pos.2 hne
    omega
  have hmem : pairs[pairs.length - 1] ∈ pairs := List.getElem_mem hlt
  obtain ⟨q, hq⟩ := Option.isSome_iff_exists.1 (hall _ hmem)
  exact ⟨q, by rw [List.getElem?_eq_getElem hlt, hq]⟩

/-! Lookup, length, panic-freedom -/

open Batteries in
theorem get_of_found {cmpK : K → K → Ordering} [TransCmp cmpK] {pairs : List (Slot K V)}
    {key : K} {i : Nat} {k0 : K} {v0 : V} (h1 : I1 cmpK pairs)
    (hi : pairs[i]? = Option.some (Option.some (k0, v0))) (he : cmpK k0 key = Ordering.eq) :
    get cmpK pairs key = Option.some v0 := by
  rw [get, binary_of_found h1 hi he]
  simp [hi]

theorem get_of_absent {cmpK : K → K → Ordering} {pairs : List (Slot K V)} {key : K}
    (habs : keyAbsent cmpK pairs key) : get cmpK pairs key = Option.none := by
  rw [get, binary_of_absent habs]

theorem len_eq_countP (pairs : List (Slot K V)) :
    len pairs = pairs.countP fun s => s.isSome :=
  (List.countP_eq_length_filter _ _).symm

theorem len_set_some {pairs : List (Slot K V)} {i : Nat}
    {k0 key : K} {v0 v : V} (hi : pairs[i]? = Option.some (Option.some (k0, v0))) :
    len (pairs.set i (Option.some (key, v))) = len pairs := by
  have hset := List.set_eq_take_cons_drop (Option.some (key, v))
    (List.getElem?_eq_some.1 hi).1
  have hdecomp := eq_take_cons_drop hi
  rw [len_eq_countP, len_eq_countP, hset]
  conv_rhs => rw [hdecomp]
  rw [List.countP_append, List.countP_append, List.countP_cons, List.countP_cons]
  simp

theorem len_insert_new {pairs : List (Slot K V)} {i : Nat} {key : K} {v : V}
    (hlast : pairs[pairs.length - 1]? = Option.some Option.none) (hi_lt : i < pairs.length) :
    len (pairs.take i ++ Option.some (key, v) :: (pairs.drop i).dropLast) = len pairs + 1 := by
  have hP := eq_append_last hlast
  have hlenP : (pairs.take (pairs.length - 1)).length = pairs.length - 1 := by
    rw [List.length_take]
    exact Nat.min_eq_left (Nat.sub_le _ _)
  have hi_le : i ≤ pairs.length - 1 := by omega
  have hdrop : pairs.drop i = (pairs.take (pairs.length - 1)).drop i ++ [Option.none] := by
    conv_lhs => rw [hP]
    rw [List.drop_append_of_le_length (by rw [hlenP]; exact hi_le)]
  have hdropLast : (pairs.drop i).dropLast = (pairs.take (pairs.length - 1)).drop i := by
    rw [hdrop, List.dropLast_concat]
  rw [len_eq_countP, len_eq_countP, hdropLast]
  conv_rhs => rw [← List.take_append_drop i pairs, hdrop]
  rw [List.countP_append, List.countP_cons]
  conv_rhs => rw [List.countP_append, List.countP_append]
  simp
  omega

open Batteries in
theorem insert_ne_none {cmpK : K → K → Ordering} [TransCmp cmpK] {pairs : List (Slot K V)}
    {key : K} {v : V} (h1 : I1 cmpK pairs) (hne : pairs ≠ []) :
    insert cmpK pairs key v ≠ Option.none := by
  cases hb : binary_search_by_key cmpK pairs key with
  | ok i =>
    obtain ⟨hidx, k0, v0, hi, he⟩ := binary_ok_inv hb
    rw [insert_found h1 hi he v]
    simp
  | error i =>
    cases hs : pairs[pairs.length - 1]? with
    | none =>
      exfalso
      rw [List.getElem?_eq_none_iff] at hs
      have := List.length_pos.2 hne
      omega
    | some s =>
      cases s with
      | some q =>
        rw [insert_full (absent_of_binary_err h1 hb) hs v]
        simp
      | none =>
        rw [insert_new hb hs v]
        simp

theorem remove_ne_none {cmpK : K → K → Ordering} {pairs : List (Slot K V)} {key : K} :
    remove cmpK pairs key ≠ Option.none := by
  cases hb : binary_search_by_key cmpK pairs key with
  | ok i =>
    obtain ⟨hidx, k0, v0, hi, he⟩ := binary_ok_inv hb
    rw [remove, hb]
    simp [hi]
  | error i =>
    rw [remove, hb]
    simp

/-! Claim theorems.  Each theorem settles one claim of the specification
against the embedded code. -/

open Batteries in
/-- Claim C1: for every borrowed storage region satisfying I1 (all occupied
slots first, strictly increasing by key, followed by all empty slots) and I2
(no key occurs in more than one occupied slot), and every finite sequence of
insert and remove operations that completes, the region satisfies I1 and I2
again afterwards. -/
theorem claim1_invariants_preserved {cmpK : K → K → Ordering} [TransCmp cmpK]
    (ops : List (MapOp K V)) (pairs pairs' : List (Slot K V))
    (h1 : I1 cmpK pairs) (h2 : I2 cmpK pairs)
    (hrun : runOps cmpK ops pairs = Option.some pairs') :
    I1 cmpK pairs' ∧ I2 cmpK pairs' := by
  have h1' := runOps_preserves_I1 ops h1 hrun
  exact ⟨h1', I2_of_I1 h1'⟩

/-- Witness for C1: a concrete three-operation run on a two-slot region. -/
theorem claim1_witness :
    I1 compare ([Option.none, Option.none] : List (Slot Nat Nat)) ∧
    runOps compare [MapOp.ins 2 20, MapOp.ins 1 10, MapOp.del 2]
      ([Option.none, Option.none] : List (Slot Nat Nat)) =
      Option.some [Option.some (1, 10), Option.none] ∧
    (I1 compare ([Option.some (1, 10), Option.none] : List (Slot Nat Nat)) ∧
      I2 compare ([Option.some (1, 10), Option.none] : List (Slot Nat Nat))) :=
  ⟨by decide, by decide,
    claim1_invariants_preserved [MapOp.ins 2 20, MapOp.ins 1 10, MapOp.del 2]
      [Option.none, Option.none] [Option.some (1, 10), Option.none]
      (by decide) (I2_of_I1 (by decide)) (by decide)⟩

/-- Counterexample to C2 as stated: the zero-capacity region satisfies I1 and
I2, every slot of it is (vacuously) occupied and the key is absent, yet
`insert` does not return the error carrying back key and value — it panics
(the fullness check indexes the empty slice), modelled by `Option.none`. -/
theorem claim2_counterexample :
    I1 compare ([] : List (Slot Nat Nat)) ∧ I2 compare ([] : List (Slot Nat Nat)) ∧
    (∀ s ∈ ([] : List (Slot Nat Nat)), s.isSome = true) ∧
    keyAbsent compare ([] : List (Slot Nat Nat)) 0 ∧
    insert compare ([] : List (Slot Nat Nat)) 0 0 = Option.none ∧
    insert compare ([] : List (Slot Nat Nat)) 0 0 ≠
      Option.some (Except.error (0, 0), ([] : List (Slot Nat Nat))) := by
  refine ⟨by decide, I2_iff.2 List.Pairwise.nil, by simp, by decide, rfl, by decide⟩

open Batteries in
/-- Claim C2 as amended: for every NONEMPTY bounded map satisfying I1 in which
every slot is occupied, inserting an absent key returns the error carrying back
exactly the given key and value with the region unchanged; this is the only
condition under which insert returns the error; and under I1 the
implementation's "last slot occupied" test is equivalent to "no empty slot
exists in the region". -/
theorem claim2_full_rejection {cmpK : K → K → Ordering} [TransCmp cmpK]
    {pairs : List (Slot K V)} (h1 : I1 cmpK pairs) (hne : pairs ≠ []) (key : K) (v : V) :
    ((∀ s ∈ pairs, s.isSome = true) → keyAbsent cmpK pairs key →
      insert cmpK pairs key v = Option.some (Except.error (key, v), pairs)) ∧
    (∀ e st, insert cmpK pairs key v = Option.some (Except.error e, st) →
      e = (key, v) ∧ st = pairs ∧ (∀ s ∈ pairs, s.isSome = true) ∧
        keyAbsent cmpK pairs key) ∧
    ((∃ s, pairs[pairs.length - 1]? = Option.some s ∧ s.isSome = true) ↔
      (∀ s ∈ pairs, s.isSome = true)) := by
  refine ⟨?_, ?_, ?_⟩
  · intro hall habs
    obtain ⟨q, hq⟩ := exists_last_isSome hne hall
    exact insert_full habs hq v
  · intro e st h
    cases hb : binary_search_by_key cmpK pairs key with
    | ok i =>
      obtain ⟨hidx, k0, v0, hi, he⟩ := binary_ok_inv hb
      rw [insert_found h1 hi he v] at h
      simp at h
    | error i =>
      cases hs : pairs[pairs.length - 1]? with
      | none =>
        exfalso
        rw [List.getElem?_eq_none_iff] at hs
        have := List.length_pos.2 hne
        omega
      | some s =>
        cases s with
        | none =>
          rw [insert_new hb hs v] at h
          simp at h
        | some q =>
          have habs := absent_of_binary_err h1 hb
          rw [insert_full habs hs v] at h
          simp only [Option.some.injEq, Prod.mk.injEq, Except.error.injEq] at h
          exact ⟨h.1.symm, h.2.symm, all_isSome_of_last h1 hs rfl, habs⟩
  · constructor
    · rintro ⟨s, hs, hsome⟩
      exact all_isSome_of_last h1 hs hsome
    · intro hall
      obtain ⟨q, hq⟩ := exists_last_isSome hne hall
      exact ⟨Option.some q, hq, rfl⟩

/-- Witness for C2 (amended): a full one-slot region rejects an absent key. -/
theorem claim2_witness :
    insert compare ([Option.some (1, 10)] : List (Slot Nat Nat)) 2 5 =
      Option.some (Except.error (2, 5), [Option.some (1, 10)]) :=
  (claim2_full_rejection (by decide) (by decide) 2 5).1 (by decide) (by decide)

open Batteries in
/-- Claim C3: under I1, inserting an absent key with the last slot empty makes
the binary search yield the insertion index `i`; the sub-range from `i` to the
end is rotated left by (suffix length − 1), index `i` receives the new pair,
all slots before `i` are unchanged, and the operation returns success with no
previous value; inserting into an entirely empty region places the pair at
index 0. -/
theorem claim3_insert_with_space {cmpK : K → K → Ordering} [TransCmp cmpK]
    {pairs : List (Slot K V)} (h1 : I1 cmpK pairs) (key : K) (v : V)
    (habs : keyAbsent cmpK pairs key)
    (hlast : pairs[pairs.length - 1]? = Option.some Option.none) :
    binary_search_by_key cmpK pairs key =
      Except.error (insertionIdx cmpK pairs key) ∧
    insert cmpK pairs key v = Option.some (Except.ok Option.none,
      pairs.take (insertionIdx cmpK pairs key) ++ Option.some (key, v) ::
        (pairs.drop (insertionIdx cmpK pairs key)).dropLast) ∧
    ((∀ s ∈ pairs, s = Option.none) →
      insert cmpK pairs key v =
        Option.some (Except.ok Option.none, Option.some (key, v) :: pairs.dropLast)) := by
  have hb := binary_of_absent habs
  refine ⟨hb, insert_new hb hlast v, ?_⟩
  intro hallnone
  have hidx0 : insertionIdx cmpK pairs key = 0 := by
    rw [insertionIdx, List.countP_eq_zero]
    intro s hs
    rw [hallnone s hs]
    simp
  have hres := insert_new hb hlast v
  rw [hidx0] at hres
  simpa using hres

/-- Witness for C3: inserting 2 between 1 and 3 shifts the suffix right. -/
theorem claim3_witness :
    insert compare
      ([Option.some (1, 10), Option.some (3, 30), Option.none, Option.none] :
        List (Slot Nat Nat)) 2 20 =
      Option.some (Except.ok Option.none,
        [Option.some (1, 10), Option.some (2, 20), Option.some (3, 30), Option.none]) :=
  ((claim3_insert_with_space (by decide) 2 20 (by decide) (by rfl)).2.1).trans (by decide)

open Batteries in
/-- Claim C4: under I1, removing an absent key changes no slot and returns no
value; removing a key present at index `i` returns the removed value and
rotates the sub-range from `i` to the end left by one, leaving one additional
empty slot at the end. -/
theorem claim4_remove_shift {cmpK : K → K → Ordering} [TransCmp cmpK]
    {pairs : List (Slot K V)} (h1 : I1 cmpK pairs) (key : K) :
    (keyAbsent cmpK pairs key → remove cmpK pairs key = Option.some (Option.none, pairs)) ∧
    (∀ i k0 v0, pairs[i]? = Option.some (Option.some (k0, v0)) →
      cmpK k0 key = Ordering.eq →
      remove cmpK pairs key = Option.some (Option.some v0,
        pairs.take i ++ (pairs.drop (i + 1) ++ [Option.none]))) :=
  ⟨remove_absent, fun _ _ _ hi he => remove_found h1 hi he⟩

/-- Witness for C4: removing the first key of a full four-slot region, and a
no-op removal of an absent key. -/
theorem claim4_witness :
    remove compare
      ([Option.some (1, 10), Option.some (2, 20), Option.some (3, 30),
        Option.some (4, 40)] : List (Slot Nat Nat)) 1 =
      Option.some (Option.some 10,
        [Option.some (2, 20), Option.some (3, 30), Option.some (4, 40), Option.none]) ∧
    remove compare
      ([Option.some (1, 10), Option.some (2, 20), Option.some (3, 30),
        Option.some (4, 40)] : List (Slot Nat Nat)) 7 =
      Option.some (Option.none,
        [Option.some (1, 10), Option.some (2, 20), Option.some (3, 30),
          Option.some (4, 40)]) :=
  ⟨((claim4_remove_shift (by decide) 1).2 0 1 10 (by rfl) (by decide)).trans (by decide),
    (claim4_remove_shift (by decide) 7).1 (by decide)⟩

open Batteries in
/-- Claim C5: under I1, whenever `insert key v` succeeds, `get key` on the
resulting region returns `v`. -/
theorem claim5_round_trip {cmpK : K → K → Ordering} [TransCmp cmpK]
    {pairs pairs' : List (Slot K V)} (h1 : I1 cmpK pairs) (key : K) (v : V)
    (r : Option V)
    (h : insert cmpK pairs key v = Option.some (Except.ok r, pairs')) :
    get cmpK pairs' key = Option.some v := by
  cases hb : binary_search_by_key cmpK pairs key with
  | ok i =>
    obtain ⟨hidx, k0, v0, hi, he⟩ := binary_ok_inv hb
    have hins := insert_found h1 hi he v
    rw [hins] at h
    simp only [Option.some.injEq, Prod.mk.injEq] at h
    obtain ⟨-, rfl⟩ := h
    have h1' := insert_preserves_I1 h1 hins
    have hilen := (List.getElem?_eq_some.1 hi).1
    have hi' : (pairs.set i (Option.some (key, v)))[i]? =
        Option.some (Option.some (key, v)) :=
      List.getElem?_set_self hilen
    exact get_of_found h1' hi' OrientedCmp.cmp_refl
  | error i =>
    cases hs : pairs[pairs.length - 1]? with
    | none =>
      rw [insert, hb] at h
      simp [hs] at h
    | some s =>
      cases s with
      | some q =>
        rw [insert_full (absent_of_binary_err h1 hb) hs v] at h
        simp at h
      | none =>
        have hins := insert_new hb hs v
        rw [hins] at h
        simp only [Option.some.injEq, Prod.mk.injEq] at h
        obtain ⟨-, rfl⟩ := h
        have h1' := insert_preserves_I1 h1 hins
        have hi_lt : i < pairs.length := err_idx_lt hb hs
        have hlen_take_i : (pairs.take i).length = i := by
          rw [List.length_take]
          exact Nat.min_eq_left (Nat.le_of_lt hi_lt)
        have hi' : (pairs.take i ++ Option.some (key, v) ::
            (pairs.drop i).dropLast)[i]? = Option.some (Option.some (key, v)) := by
          rw [List.getElem?_append_right hlen_take_i.le, hlen_take_i]
          simp
        exact get_of_found h1' hi' OrientedCmp.cmp_refl

/-- Witness for C5: after inserting key 2 with value 20, `get 2` returns 20. -/
theorem claim5_witness :
    get compare ([Option.some (1, 10), Option.some (2, 20)] : List (Slot Nat Nat)) 2 =
      Option.some 20 :=
  @claim5_round_trip Nat Nat compare inferInstance
    [Option.some (1, 10), Option.none] [Option.some (1, 10), Option.some (2, 20)]
    (by decide) 2 20 Option.none (by decide)

open Batteries in
/-- Claim C6: under I1, inserting an already-present key returns success with
the prior value and leaves `len` unchanged (no fullness condition applies);
inserting an absent key while an empty slot exists returns success with no
prior value and increases `len` by exactly one. -/
theorem claim6_replace_and_grow {cmpK : K → K → Ordering} [TransCmp cmpK]
    {pairs : List (Slot K V)} (h1 : I1 cmpK pairs) (key : K) (v : V) :
    (∀ i k0 v0, pairs[i]? = Option.some (Option.some (k0, v0)) →
      cmpK k0 key = Ordering.eq →
      insert cmpK pairs key v =
        Option.some (Except.ok (Option.some v0), pairs.set i (Option.some (key, v))) ∧
      len (pairs.set i (Option.some (key, v))) = len pairs) ∧
    (keyAbsent cmpK pairs key → (∃ s ∈ pairs, s = Option.none) →
      ∃ pairs', insert cmpK pairs key v = Option.some (Except.ok Option.none, pairs') ∧
        len pairs' = len pairs + 1) := by
  refine ⟨fun _ k0 v0 hi he => ⟨insert_found h1 hi he v, len_set_some hi⟩, ?_⟩
  rintro habs ⟨s, hs, rfl⟩
  have hlast := last_none_of_mem_none h1 hs
  have hb := binary_of_absent habs
  exact ⟨_, insert_new hb hlast v, len_insert_new hlast (err_idx_lt hb hlast)⟩

/-- Witness for C6: replacement on a full one-slot region keeps the length;
insertion of a fresh key into a half-full region grows the length by one. -/
theorem claim6_witness :
    (insert compare ([Option.some (1, 10)] : List (Slot Nat Nat)) 1 99 =
        Option.some (Except.ok (Option.some 10), [Option.some (1, 99)]) ∧
      len ([Option.some (1, 99)] : List (Slot Nat Nat)) =
        len ([Option.some (1, 10)] : List (Slot Nat Nat))) ∧
    (∃ pairs', insert compare ([Option.some (1, 10), Option.none] : List (Slot Nat Nat))
        2 20 = Option.some (Except.ok Option.none, pairs') ∧
      len pairs' = len ([Option.some (1, 10), Option.none] : List (Slot Nat Nat)) + 1) := by
  constructor
  · have h := (@claim6_replace_and_grow Nat Nat compare inferInstance
      [Option.some (1, 10)] (by decide) 1 99).1 0 1 10 (by rfl) (by decide)
    exact ⟨h.1.trans (by decide), h.2⟩
  · exact (@claim6_replace_and_grow Nat Nat compare inferInstance
      [Option.some (1, 10), Option.none] (by decide) 2 20).2 (by decide)
      ⟨Option.none, by simp⟩

/-- A comparator on pairs of naturals that compares only the first component:
a lawful comparator (total preorder) whose equivalence is coarser than
structural identity — two pairs with equal first components compare equal yet
are distinguishable values, as Rust permits for an `Ord` key type. -/
def cmpFst (a b : Nat × Nat) : Ordering :=
  compare a.1 b.1

instance : Batteries.TransCmp cmpFst :=
  inferInstanceAs (Batteries.TransCmp (compareOn Prod.fst))

/-- Counterexample to C7 as stated: on a replacing insert the code swaps the
WHOLE pair into the slot, so the stored key becomes the newly supplied key
`(0, 1)` — which compares equal to, but is not, the previously stored key
`(0, 0)`.  The claim asserts the previously stored key remains. -/
theorem claim7_counterexample :
    I1 cmpFst ([Option.some ((0, 0), 0)] : List (Slot (Nat × Nat) Nat)) ∧
    insert cmpFst ([Option.some ((0, 0), 0)] : List (Slot (Nat × Nat) Nat)) (0, 1) 5 =
      Option.some (Except.ok (Option.some 0), [Option.some ((0, 1), 5)]) ∧
    ((0, 1) : Nat × Nat) ≠ (0, 0) :=
  ⟨by decide, by decide, by decide⟩

open Batteries in
/-- Claim C7 as amended: under I1, when `insert key v` finds the key present at
index `i`, only slot `i` changes: it stays occupied and now holds the pair of
the NEWLY SUPPLIED key (which compares equal to the previous one) and the new
value, the prior value is returned, and every slot other than `i` is
unchanged. -/
theorem claim7_replace_in_place {cmpK : K → K → Ordering} [TransCmp cmpK]
    {pairs : List (Slot K V)} (h1 : I1 cmpK pairs) (i : Nat) (k0 key : K) (v0 v : V)
    (hi : pairs[i]? = Option.some (Option.some (k0, v0)))
    (he : cmpK k0 key = Ordering.eq) :
    insert cmpK pairs key v =
      Option.some (Except.ok (Option.some v0), pairs.set i (Option.some (key, v))) :=
  insert_found h1 hi he v

/-- Witness for C7 (amended): replacing the value stored under key 5. -/
theorem claim7_witness :
    insert compare ([Option.some (5, 50)] : List (Slot Nat Nat)) 5 99 =
      Option.some (Except.ok (Option.some 50), [Option.some (5, 99)]) :=
  (claim7_replace_in_place (by decide) 0 5 5 50 99 (by rfl) (by decide)).trans (by decide)

/-- Claim C8: `clear` empties every slot, after which `len` is 0 and
`is_empty` is true; at every state `len` counts the occupied slots and
`is_empty` holds exactly when no slot is occupied. -/
theorem claim8_clear_len_is_empty (pairs : List (Slot K V)) :
    len (clear pairs) = 0 ∧ is_empty (clear pairs) = true ∧
    (∀ s ∈ clear pairs, s = Option.none) ∧
    (len pairs = pairs.countP fun s => s.isSome) ∧
    (is_empty pairs = true ↔ ∀ s ∈ pairs, s = Option.none) := by
  refine ⟨?_, ?_, ?_, len_eq_countP pairs, ?_⟩
  · rw [len_eq_countP, clear, List.countP_eq_zero]
    intro s hs
    rw [List.mem_map] at hs
    obtain ⟨t, -, rfl⟩ := hs
    simp
  · rw [is_empty, List.all_eq_true]
    intro s hs
    rw [clear, List.mem_map] at hs
    obtain ⟨t, -, rfl⟩ := hs
    rfl
  · intro s hs
    rw [clear, List.mem_map] at hs
    obtain ⟨t, -, rfl⟩ := hs
    rfl
  · rw [is_empty, List.all_eq_true]
    constructor
    · intro h s hs
      have hsome := h s hs
      cases s with
      | none => rfl
      | some p => simp at hsome
    · intro h s hs
      rw [h s hs]
      rfl

open Batteries in
/-- Claim C9: under I1 the two internal invariant assertions are unreachable —
on a nonempty region `insert` never panics (in particular slot `i` is empty
after the rotation, so the `assert!` passes), and `remove` never panics (the
slot found by the search is always occupied, so the `expect` passes). -/
theorem claim9_assertions_unreachable {cmpK : K → K → Ordering} [TransCmp cmpK]
    {pairs : List (Slot K V)} (h1 : I1 cmpK pairs) (key : K) (v : V) :
    (pairs ≠ [] → insert cmpK pairs key v ≠ Option.none) ∧
    remove cmpK pairs key ≠ Option.none :=
  ⟨fun hne => insert_ne_none h1 hne, remove_ne_none⟩

/-- Witness for C9: neither inserting a fresh key into a half-full region nor
removing an existing key panics. -/
theorem claim9_witness :
    insert compare ([Option.some (1, 10), Option.none] : List (Slot Nat Nat)) 2 20 ≠
      Option.none ∧
    remove compare ([Option.some (1, 10), Option.none] : List (Slot Nat Nat)) 1 ≠
      Option.none :=
  ⟨(claim9_assertions_unreachable (by decide) 2 20).1 (by decide),
    (claim9_assertions_unreachable (by decide) 1 20).2⟩

/-- Claim C10: on the zero-length borrowed region, `insert` panics for every
key (the fullness check indexes the empty slice) instead of returning the
full-region error, while `get`, `get_mut`, `remove`, `clear`, `len` and
`is_empty` all complete normally. -/
theorem claim10_zero_capacity (cmpK : K → K → Ordering) (key : K) (v : V) :
    insert cmpK ([] : List (Slot K V)) key v = Option.none ∧
    get cmpK ([] : List (Slot K V)) key = Option.none ∧
    get_mut cmpK ([] : List (Slot K V)) key = Option.none ∧
    remove cmpK ([] : List (Slot K V)) key = Option.some (Option.none, []) ∧
    clear ([] : List (Slot K V)) = [] ∧
    len ([] : List (Slot K V)) = 0 ∧
    is_empty ([] : List (Slot K V)) = true :=
  ⟨rfl, rfl, rfl, rfl, rfl, rfl, rfl⟩

end ManagedMap
